import Mathlib

/-!
Verification development for the credit-card statement parser
(`creditcard_parser.py`).  The source operates on Python strings; here a
string is modelled as `List Char`.  The regular expressions of the source
are modelled by a small backtracking engine: a pattern is a function
`List Char → List Nat` returning, in the engine's backtracking priority
order, every length of a prefix the pattern can consume.  Sequencing,
alternation, greedy repetition and option are combinators on such
functions, so the head of the list at the leftmost succeeding position is
exactly the match Python's `re.search` produces.  `\d`, `[A-Za-z]` and the
case folding of `re.I` are modelled on their ASCII meaning (every string
the repository's patterns and tables mention is ASCII apart from the
rupee sign, which no case folding touches); `\s` is modelled by the
ASCII whitespace characters plus the common Unicode whitespace code
points, matching Python's treatment of the inputs that occur here.
-/

/-- Characters matched by the `\s` class and stripped by `str.strip`:
ASCII whitespace plus the usual Unicode whitespace code points. -/
def pySpaceChars : List Char :=
  [' ', '\t', '\n', '\r', '\x0b', '\x0c',
   '\x1c', '\x1d', '\x1e', '\x1f', '\x85', '\u00a0',
   '\u1680', '\u2000', '\u2001', '\u2002', '\u2003', '\u2004', '\u2005',
   '\u2006', '\u2007', '\u2008', '\u2009', '\u200a',
   '\u2028', '\u2029', '\u202f', '\u205f', '\u3000']

/-- Whitespace test (`\s`, `str.strip`). -/
def isPySpace (c : Char) : Bool := pySpaceChars.contains c

/-- Digit test (`\d`, ASCII). -/
def isDig (c : Char) : Bool := '0' ≤ c && c ≤ '9'

/-- Uppercase ASCII letter (`[A-Z]`). -/
def isAsciiUpper (c : Char) : Bool := 'A' ≤ c && c ≤ 'Z'

/-- Lowercase ASCII letter (`[a-z]`). -/
def isAsciiLower (c : Char) : Bool := 'a' ≤ c && c ≤ 'z'

/-- ASCII letter (`[A-Za-z]`). -/
def isAsciiAlpha (c : Char) : Bool := isAsciiUpper c || isAsciiLower c

/-- One step of `re.sub(r'\s+', ' ', s)`: replace every maximal whitespace
run by a single space.  The flag records whether the previous character
was part of a whitespace run. -/
def collapseAux : Bool → List Char → List Char
  | _, [] => []
  | prevSpace, c :: rest =>
    if isPySpace c then
      if prevSpace then collapseAux true rest else ' ' :: collapseAux true rest
    else
      c :: collapseAux false rest

/-- Python `str.strip()`: drop leading and trailing whitespace. -/
def pyStrip (l : List Char) : List Char :=
  ((l.dropWhile isPySpace).reverse.dropWhile isPySpace).reverse

/-- `normalize_spaces(s)` from the source:
`re.sub(r'\s+', ' ', s).strip()`. -/
def normalize_spaces (s : List Char) : List Char :=
  pyStrip (collapseAux false s)

/-- `snippet_around(text, match_span, context)` from the source:
`normalize_spaces(text[max(0, start - context) : min(len(text), end + context)])`.
Python's `max(0, start - context)` is truncated subtraction on `Nat`. -/
def snippet_around (text : List Char) (s e context : Nat) : List Char :=
  normalize_spaces ((text.take (min text.length (e + context))).drop (s - context))

/-- Python `str.title()` restricted to ASCII letters: the first letter of
every maximal letter run is uppercased, the others lowercased. -/
def pyTitleAux : Bool → List Char → List Char
  | _, [] => []
  | prevAlpha, c :: rest =>
    if isAsciiAlpha c then
      (if prevAlpha then c.toLower else c.toUpper) :: pyTitleAux true rest
    else
      c :: pyTitleAux false rest

/-- Python `str.title()` (ASCII). -/
def pyTitle (l : List Char) : List Char := pyTitleAux false l

/-- Python `haystack.find(needle)` (and `needle in haystack`, which is
`find ≠ none`): index of the first occurrence of `needle` as a substring. -/
def strFindAux (needle : List Char) : Nat → List Char → Option Nat
  | i, [] => if List.isPrefixOf needle [] then some i else none
  | i, c :: rest =>
    if List.isPrefixOf needle (c :: rest) then some i
    else strFindAux needle (i + 1) rest

/-- First index at which `needle` occurs in `hay`, if any. -/
def strFind (needle hay : List Char) : Option Nat := strFindAux needle 0 hay

/-!
The pattern engine.  A pattern denotes `List Char → List Nat`: all the
prefix lengths it can consume, most-preferred first.
-/

/-- Priority list `[hi, hi-1, ..., hi-count+1]`. -/
def downFrom (hi : Nat) : Nat → List Nat
  | 0 => []
  | count + 1 => hi :: downFrom (hi - 1) count

/-- Priority list `[hi, hi-1, ..., lo]` (empty when `hi < lo`): the greedy
preference order of a counted repetition. -/
def downFromTo (hi lo : Nat) : List Nat := downFrom hi (hi + 1 - lo)

/-- Empty pattern: consumes nothing. -/
def optsEps : List Char → List Nat := fun _ => [0]

/-- Literal string (case sensitive). -/
def optsLit (pat : List Char) (l : List Char) : List Nat :=
  if List.isPrefixOf pat l then [pat.length] else []

/-- Case-insensitive prefix test (ASCII folding, as `re.I` on the ASCII
label strings of the source). -/
def ciPrefix : List Char → List Char → Bool
  | [], _ => true
  | _ :: _, [] => false
  | p :: ps, c :: cs => (p.toLower == c.toLower) && ciPrefix ps cs

/-- Literal string under `re.I`. -/
def optsLitCI (pat : List Char) (l : List Char) : List Nat :=
  if ciPrefix pat l then [pat.length] else []

/-- Single character from a class. -/
def optsCls (p : Char → Bool) (l : List Char) : List Nat :=
  match l with
  | [] => []
  | c :: _ => if p c then [1] else []

/-- Greedy `X*` over a character class: any run length up to the maximal
run, longest first. -/
def optsStar (p : Char → Bool) (l : List Char) : List Nat :=
  downFromTo (l.takeWhile p).length 0

/-- Greedy `X+` over a character class. -/
def optsPlus (p : Char → Bool) (l : List Char) : List Nat :=
  downFromTo (l.takeWhile p).length 1

/-- Greedy counted repetition over a character class (`X{lo,hi}`). -/
def optsRep (p : Char → Bool) (lo hi : Nat) (l : List Char) : List Nat :=
  downFromTo (min hi (l.takeWhile p).length) lo

/-- Sequencing: every way of splitting the consumption, in backtracking
order (all continuations of a more-preferred head come first). -/
def optsSeq (A B : List Char → List Nat) (l : List Char) : List Nat :=
  (A l).flatMap fun n => (B (l.drop n)).map fun m => n + m

/-- Ordered alternation (`X|Y`): the left branch is preferred. -/
def optsAlt (A B : List Char → List Nat) (l : List Char) : List Nat :=
  A l ++ B l

/-- Greedy option (`X?`). -/
def optsOpt (A : List Char → List Nat) (l : List Char) : List Nat :=
  A l ++ [0]

/-- The anchored match of `PREFIX(CAPTURE)` at the head of `l`: the first
pair of consumption lengths, in backtracking order, exactly as Python's
engine would produce it (a prefix option is kept only if the capture can
consume something after it). -/
def firstSplit (A B : List Char → List Nat) (l : List Char) : Option (Nat × Nat) :=
  (A l).findSome? fun n => ((B (l.drop n)).head?).map fun m => (n, m)

/-- `re.search` for `PREFIX(CAPTURE)`: try every start position from left
to right; the result is `(start, prefix length, capture length)`. -/
def searchFrom (A B : List Char → List Nat) : Nat → List Char → Option (Nat × Nat × Nat)
  | i, [] => (firstSplit A B []).map fun nm => (i, nm.1, nm.2)
  | i, c :: rest =>
    match firstSplit A B (c :: rest) with
    | some nm => some (i, nm.1, nm.2)
    | none => searchFrom A B (i + 1) rest

/-!
The seven compiled patterns of the source.
-/

/-- Class `[:\-]`. -/
def isColonDash (c : Char) : Bool := c == ':' || c == '-'

/-- Class `[\/\-]`. -/
def isSlashDash (c : Char) : Bool := c == '/' || c == '-'

/-- Class `[,\d]`. -/
def isCommaDigit (c : Char) : Bool := c == ',' || isDig c

/-- Class `[A-Za-z0-9 ,\/\-]` (the due-date capture). -/
def isDueClass (c : Char) : Bool :=
  isAsciiAlpha c || isDig c || c == ' ' || c == ',' || c == '/' || c == '-'

/-- Class `[A-Za-z0-9 ,\/\-\–to]` (the statement-period capture: the
due-date class plus the en dash; `t` and `o` are already letters). -/
def isPeriodClass (c : Char) : Bool := isDueClass c || c == '–'

/-- `(?:[:\-]?\s*)`: optional colon or dash, then whitespace. -/
def sepOpts : List Char → List Nat :=
  optsSeq (optsOpt (optsCls isColonDash)) (optsStar isPySpace)

/-- The label alternation of `RE_LAST4`:
`Card(?:\s+ending\s+in| number| no\.?)|Account(?:\s+ending\s+in)|Acct(?:\.)?|ending|XXX-XXXX-`. -/
def last4LabelOpts : List Char → List Nat :=
  optsAlt
    (optsSeq (optsLitCI ("card".toList))
      (optsAlt
        (optsSeq (optsPlus isPySpace)
          (optsSeq (optsLitCI ("ending".toList))
            (optsSeq (optsPlus isPySpace) (optsLitCI ("in".toList)))))
        (optsAlt (optsLitCI (" number".toList))
          (optsSeq (optsLitCI (" no".toList)) (optsOpt (optsLit ['.']))))))
    (optsAlt
      (optsSeq (optsLitCI ("account".toList))
        (optsSeq (optsPlus isPySpace)
          (optsSeq (optsLitCI ("ending".toList))
            (optsSeq (optsPlus isPySpace) (optsLitCI ("in".toList))))))
      (optsAlt
        (optsSeq (optsLitCI ("acct".toList)) (optsOpt (optsLit ['.'])))
        (optsAlt (optsLitCI ("ending".toList)) (optsLitCI ("xxx-xxxx-".toList)))))

/-- Everything of `RE_LAST4` before the capture: the label followed by
`(?:[:\-]?\s*)?`. -/
def last4PrefixOpts : List Char → List Nat :=
  optsSeq last4LabelOpts (optsOpt sepOpts)

/-- The capture of `RE_LAST4`: `(\d{4})`. -/
def last4CapOpts : List Char → List Nat := optsRep isDig 4 4

/-- `RE_LAST4.search`: `(start, prefix length, capture length)`. -/
def searchLAST4 (t : List Char) : Option (Nat × Nat × Nat) :=
  searchFrom last4PrefixOpts last4CapOpts 0 t

/-- The label alternation of `RE_DUE`. -/
def dueLabelOpts : List Char → List Nat :=
  optsAlt (optsLitCI ("payment due date".toList))
    (optsAlt (optsLitCI ("due date".toList))
      (optsAlt (optsLitCI ("payment due on".toList))
        (optsLitCI ("pay by date".toList))))

/-- Everything of `RE_DUE` before the capture: label, `\s*`,
`(?:[:\-]?\s*)`. -/
def duePrefixOpts : List Char → List Nat :=
  optsSeq dueLabelOpts (optsSeq (optsStar isPySpace) sepOpts)

/-- The capture of `RE_DUE`: `([A-Za-z0-9 ,\/\-]+)`. -/
def dueCapOpts : List Char → List Nat := optsPlus isDueClass

/-- `RE_DUE.search`. -/
def searchDUE (t : List Char) : Option (Nat × Nat × Nat) :=
  searchFrom duePrefixOpts dueCapOpts 0 t

/-- The label alternation of `RE_PERIOD`. -/
def periodLabelOpts : List Char → List Nat :=
  optsAlt (optsLitCI ("statement period".toList))
    (optsAlt (optsLitCI ("billing period".toList))
      (optsAlt (optsLitCI ("statement date range".toList))
        (optsLitCI ("account activity".toList))))

/-- Everything of `RE_PERIOD` before the capture. -/
def periodPrefixOpts : List Char → List Nat :=
  optsSeq periodLabelOpts (optsSeq (optsStar isPySpace) sepOpts)

/-- The capture of `RE_PERIOD`: `([A-Za-z0-9 ,\/\-\–to]+)`. -/
def periodCapOpts : List Char → List Nat := optsPlus isPeriodClass

/-- `RE_PERIOD.search`. -/
def searchPERIOD (t : List Char) : Option (Nat × Nat × Nat) :=
  searchFrom periodPrefixOpts periodCapOpts 0 t

/-- The label alternation of `RE_TOTAL_BAL`. -/
def totalLabelOpts : List Char → List Nat :=
  optsAlt (optsLitCI ("total amount due".toList))
    (optsAlt (optsLitCI ("total outstanding".toList))
      (optsAlt (optsLitCI ("total due".toList))
        (optsAlt (optsLitCI ("new balance".toList))
          (optsAlt (optsLitCI ("amount due".toList))
            (optsLitCI ("balance due".toList))))))

/-- Everything of `RE_TOTAL_BAL` before the capture. -/
def totalPrefixOpts : List Char → List Nat :=
  optsSeq totalLabelOpts (optsSeq (optsStar isPySpace) sepOpts)

/-- `₹?\s*[,\d]+(?:\.\d{2})?` — at once the capture of `RE_TOTAL_BAL` and
the whole of `RE_CURRENCY`, whose pattern texts are identical in the
source.  The trailing `(?:\.\d{2})?`. -/
def fracOpts : List Char → List Nat :=
  optsSeq (optsLit ['.']) (optsRep isDig 2 2)

/-- `₹?\s*[,\d]+(?:\.\d{2})?`. -/
def currencyOpts : List Char → List Nat :=
  optsSeq (optsOpt (optsLit ['₹']))
    (optsSeq (optsStar isPySpace)
      (optsSeq (optsPlus isCommaDigit) (optsOpt fracOpts)))

/-- `RE_TOTAL_BAL.search`. -/
def searchTOTALBAL (t : List Char) : Option (Nat × Nat × Nat) :=
  searchFrom totalPrefixOpts currencyOpts 0 t

/-- `RE_CURRENCY.search`: `(start, length)` of the whole match. -/
def searchCURRENCY (g : List Char) : Option (Nat × Nat) :=
  (searchFrom optsEps currencyOpts 0 g).map fun r => (r.1, r.2.2)

/-- `RE_DATE`: `(\d{1,2}[\/\-]\d{1,2}[\/\-]\d{2,4})`. -/
def dateOpts : List Char → List Nat :=
  optsSeq (optsRep isDig 1 2)
    (optsSeq (optsCls isSlashDash)
      (optsSeq (optsRep isDig 1 2)
        (optsSeq (optsCls isSlashDash) (optsRep isDig 2 4))))

/-- `RE_DATE.search(g).group(1)`: the matched sub-phrase. -/
def searchDATE (g : List Char) : Option (List Char) :=
  (searchFrom optsEps dateOpts 0 g).map fun r => (g.drop r.1).take r.2.2

/-- `RE_DATE_WORD`: `([A-Z][a-z]{2,8}\s+\d{1,2},\s*\d{4})`. -/
def dateWordOpts : List Char → List Nat :=
  optsSeq (optsCls isAsciiUpper)
    (optsSeq (optsRep isAsciiLower 2 8)
      (optsSeq (optsPlus isPySpace)
        (optsSeq (optsRep isDig 1 2)
          (optsSeq (optsLit [','])
            (optsSeq (optsStar isPySpace) (optsRep isDig 4 4))))))

/-- `RE_DATE_WORD.search(g).group(1)`. -/
def searchDATEWORD (g : List Char) : Option (List Char) :=
  (searchFrom optsEps dateWordOpts 0 g).map fun r => (g.drop r.1).take r.2.2

/-!
The data model and the extractors.
-/

/-- The `Extraction` dataclass: `value`, `page`, `snippet`, `confidence`,
`notes`.  Python's float confidences are the exact decimal constants of
the source, here rationals. -/
structure Extraction where
  value : Option (List Char)
  page : Option Nat
  snippet : Option (List Char)
  confidence : ℚ
  notes : Option (List Char)
deriving DecidableEq, Repr

/-- `Extraction(value=None, confidence=0.0, notes="not found")`. -/
def NOT_FOUND : Extraction :=
  ⟨none, none, none, 0, some ("not found".toList)⟩

/-- `Extraction(value=None, confidence=0.0, notes="issuer unknown")`. -/
def ISSUER_UNKNOWN : Extraction :=
  ⟨none, none, none, 0, some ("issuer unknown".toList)⟩

/-- The shared page loop of the four label extractors: `for i, text in
enumerate(pages)`, return the first extraction a page yields, else the
not-found sentinel. -/
def scanPages (step : Nat → List Char → Option Extraction) : Nat → List (List Char) → Extraction
  | _, [] => NOT_FOUND
  | i, t :: rest =>
    match step i t with
    | some e => e
    | none => scanPages step (i + 1) rest

/-- The body of `extract_last4` for one page. -/
def stepLast4 (i : Nat) (t : List Char) : Option Extraction :=
  (searchLAST4 t).map fun r =>
    ⟨some ((t.drop (r.1 + r.2.1)).take r.2.2), some (i + 1),
      some (snippet_around t r.1 (r.1 + r.2.1 + r.2.2) 40), 0.95, none⟩

/-- `extract_last4(pages)`. -/
def extract_last4 (pages : List (List Char)) : Extraction :=
  scanPages stepLast4 0 pages

/-- `RE_DATE.search(g) or RE_DATE_WORD.search(g)` on the captured
due-date phrase. -/
def duePhraseDate (g : List Char) : Option (List Char) :=
  match searchDATE g with
  | some d => some d
  | none => searchDATEWORD g

/-- The body of `extract_due_date` for one page: when the label pattern
matches but neither date shape occurs in the captured phrase, the loop
falls through to the next page. -/
def stepDue (i : Nat) (t : List Char) : Option Extraction :=
  match searchDUE t with
  | none => none
  | some r =>
    match duePhraseDate ((t.drop (r.1 + r.2.1)).take r.2.2) with
    | none => none
    | some d =>
      some ⟨some (normalize_spaces d), some (i + 1),
        some (snippet_around t r.1 (r.1 + r.2.1 + r.2.2) 40), 0.95, none⟩

/-- `extract_due_date(pages)`. -/
def extract_due_date (pages : List (List Char)) : Extraction :=
  scanPages stepDue 0 pages

/-- The body of `extract_statement_period` for one page. -/
def stepPeriod (i : Nat) (t : List Char) : Option Extraction :=
  (searchPERIOD t).map fun r =>
    ⟨some (normalize_spaces ((t.drop (r.1 + r.2.1)).take r.2.2)), some (i + 1),
      some (snippet_around t r.1 (r.1 + r.2.1 + r.2.2) 40), 0.9, none⟩

/-- `extract_statement_period(pages)`. -/
def extract_statement_period (pages : List (List Char)) : Extraction :=
  scanPages stepPeriod 0 pages

/-- The body of `extract_total_balance` for one page: the captured phrase
is searched with `RE_CURRENCY`; on success the token is the value at
confidence 0.95, otherwise the whole normalized phrase at 0.8. -/
def stepTotal (i : Nat) (t : List Char) : Option Extraction :=
  match searchTOTALBAL t with
  | none => none
  | some r =>
    let g := (t.drop (r.1 + r.2.1)).take r.2.2
    match searchCURRENCY g with
    | some a =>
      some ⟨some ((g.drop a.1).take a.2), some (i + 1),
        some (snippet_around t r.1 (r.1 + r.2.1 + r.2.2) 40), 0.95, none⟩
    | none =>
      some ⟨some (normalize_spaces g), some (i + 1),
        some (snippet_around t r.1 (r.1 + r.2.1 + r.2.2) 40), 0.8, none⟩

/-- `extract_total_balance(pages)`. -/
def extract_total_balance (pages : List (List Char)) : Extraction :=
  scanPages stepTotal 0 pages

/-- The `ISSUERS` table, in its declared (insertion) order. -/
def ISSUERS : List (List Char × List (List Char)) :=
  [("pnb".toList, ["pnb".toList, "punjab national bank".toList]),
   ("lena".toList, ["lena".toList, "bofa".toList, "bankofamerica".toList]),
   ("hdfc".toList, ["hdfc".toList]),
   ("sbi".toList, ["sbi".toList, "state bank of india".toList])]

/-- The loop of `find_issuer`: first key whose any token occurs in the
lower-cased text. -/
def findKey : List (List Char × List (List Char)) → List Char → Option (List Char)
  | [], _ => none
  | kv :: rest, lc =>
    if kv.2.any fun tok => (strFind tok lc).isSome then some kv.1
    else findKey rest lc

/-- `find_issuer(all_text)`. -/
def find_issuer (all_text : List Char) : Option (List Char) :=
  findKey ISSUERS (all_text.map Char.toLower)

/-- The per-issuer candidate-name table of `extract_card_variant`, in
declared list order. -/
def variantNames (hint : List Char) : List (List Char) :=
  if hint = "chase".toList then
    ["sapphire".toList, "freedom".toList, "ink".toList, "slate".toList]
  else if hint = "amex".toList then
    ["platinum".toList, "gold".toList, "green".toList, "blue".toList]
  else if hint = "citi".toList then
    ["thankyou".toList, "premier".toList, "double cash".toList]
  else if hint = "boa".toList then
    ["cash rewards".toList, "customized cash".toList]
  else if hint = "hsbc".toList then
    ["premier".toList, "advance".toList]
  else if hint = "sbi".toList then
    ["prime".toList, "simplyclick".toList, "elite".toList, "classic".toList]
  else []

/-- The inner loop of `extract_card_variant`: the first name of the list
occurring in the lower-cased page text, with its first occurrence index. -/
def findNameIdx : List (List Char) → List Char → Option (List Char × Nat)
  | [], _ => none
  | nm :: rest, lc =>
    match strFind nm lc with
    | some idx => some (nm, idx)
    | none => findNameIdx rest lc

/-- The body of `extract_card_variant` for one page: title-cased name,
confidence 0.85, and a ±30-character normalized window around the name's
first occurrence. -/
def stepVariant (names : List (List Char)) (i : Nat) (t : List Char) : Option Extraction :=
  match findNameIdx names (t.map Char.toLower) with
  | none => none
  | some ni =>
    some ⟨some (pyTitle ni.1), some (i + 1),
      some (normalize_spaces ((t.take (ni.2 + 30)).drop (ni.2 - 30))), 0.85, none⟩

/-- `extract_card_variant(pages, issuer_hint)`.  Python's
`if not issuer_hint` is true for `None` and for the empty string. -/
def extract_card_variant (pages : List (List Char)) (issuer_hint : Option (List Char)) : Extraction :=
  match issuer_hint with
  | none => ISSUER_UNKNOWN
  | some h =>
    if h = [] then ISSUER_UNKNOWN
    else scanPages (stepVariant (variantNames h)) 0 pages

/-- The aggregate record assembled by `parse_pdf`. -/
structure StatementRecord where
  issuer_hint : Option (List Char)
  card_last4 : Extraction
  card_variant : Extraction
  statement_period : Extraction
  payment_due_date : Extraction
  total_balance : Extraction
deriving DecidableEq, Repr

/-- The core of `parse_pdf` after `text_from_pdf` (the out-of-scope
document-text collaborator) has produced the page texts: join with
newlines, detect the issuer, run the five extractors, assemble the
record. -/
def parse_pages (pages : List (List Char)) : StatementRecord :=
  let fulltext := List.intercalate ['\n'] pages
  let issuer := find_issuer fulltext
  { issuer_hint := issuer
    card_last4 := extract_last4 pages
    card_variant := extract_card_variant pages issuer
    statement_period := extract_statement_period pages
    payment_due_date := extract_due_date pages
    total_balance := extract_total_balance pages }

/-!
Generic facts about the page scanner.
-/

/-- If every page before index `k` yields nothing and page `k` yields `e`,
the scan returns `e`: the first matching page wins and later pages are
never consulted. -/
theorem scanPages_eq_of_first (step : Nat → List Char → Option Extraction) :
    ∀ (l : List (List Char)) (i k : Nat) (e : Extraction), k < l.length →
      (∀ j, j < k → step (i + j) (l.getD j []) = none) →
      step (i + k) (l.getD k []) = some e →
      scanPages step i l = e := by
  intro l
  induction l with
  | nil => intro i k e hk; exact absurd hk (by simp)
  | cons t rest ih =>
    intro i k e hk hnone hk'
    cases k with
    | zero =>
      simp only [List.getD_cons_zero, Nat.add_zero] at hk'
      simp [scanPages, hk']
    | succ k =>
      have h0 : step i t = none := by
        have := hnone 0 (Nat.succ_pos k)
        simpa using this
      have hrec : scanPages step i (t :: rest) = scanPages step (i + 1) rest := by
        simp [scanPages, h0]
      rw [hrec]
      refine ih (i + 1) k e (by simpa using hk) ?_ ?_
      · intro j hj
        have := hnone (j + 1) (by omega)
        have harith : i + (j + 1) = i + 1 + j := by omega
        simpa [harith] using this
      · have harith : i + (k + 1) = i + 1 + k := by omega
        simpa [harith] using hk'

/-- Every extraction the scan can return is either the not-found sentinel
or some page's output. -/
theorem scanPages_inv (step : Nat → List Char → Option Extraction)
    (P : Extraction → Prop) (hnf : P NOT_FOUND)
    (hstep : ∀ i t e, step i t = some e → P e) :
    ∀ (l : List (List Char)) (i : Nat), P (scanPages step i l) := by
  intro l
  induction l with
  | nil => intro i; simpa [scanPages] using hnf
  | cons t rest ih =>
    intro i
    cases h : step i t with
    | none => simpa [scanPages, h] using ih (i + 1)
    | some e => simpa [scanPages, h] using hstep i t e h

/-!
Shape of each per-page step's output.
-/

/-- The three-way invariant of claim C2 on one extraction. -/
def invC2 (e : Extraction) : Prop :=
  (e.value = none ↔ e.confidence = 0) ∧
  (e.value = none ↔ e.notes ≠ none) ∧
  (e.confidence = 0 ↔ e.notes ≠ none)

theorem invC2_found (v : List Char) (p : Option Nat) (s : Option (List Char))
    (c : ℚ) (hc : c ≠ 0) : invC2 ⟨some v, p, s, c, none⟩ := by
  refine ⟨?_, ?_, ?_⟩ <;> simp [hc]

theorem invC2_NOT_FOUND : invC2 NOT_FOUND := by
  refine ⟨?_, ?_, ?_⟩ <;> simp [NOT_FOUND]

theorem invC2_ISSUER_UNKNOWN : invC2 ISSUER_UNKNOWN := by
  refine ⟨?_, ?_, ?_⟩ <;> simp [ISSUER_UNKNOWN]

theorem stepLast4_shape (i : Nat) (t : List Char) (e : Extraction)
    (h : stepLast4 i t = some e) :
    ∃ v s, e = ⟨some v, some (i + 1), some s, 0.95, none⟩ := by
  cases hs : searchLAST4 t with
  | none => simp [stepLast4, hs] at h
  | some r =>
    simp only [stepLast4, hs, Option.map_some', Option.some.injEq] at h
    exact ⟨_, _, h.symm⟩

theorem stepDue_shape (i : Nat) (t : List Char) (e : Extraction)
    (h : stepDue i t = some e) :
    ∃ v s, e = ⟨some v, some (i + 1), some s, 0.95, none⟩ := by
  cases hs : searchDUE t with
  | none => simp [stepDue, hs] at h
  | some r =>
    cases hd : duePhraseDate ((t.drop (r.1 + r.2.1)).take r.2.2) with
    | none => simp [stepDue, hs, hd] at h
    | some d =>
      simp only [stepDue, hs, hd, Option.some.injEq] at h
      exact ⟨_, _, h.symm⟩

theorem stepPeriod_shape (i : Nat) (t : List Char) (e : Extraction)
    (h : stepPeriod i t = some e) :
    ∃ v s, e = ⟨some v, some (i + 1), some s, 0.9, none⟩ := by
  cases hs : searchPERIOD t with
  | none => simp [stepPeriod, hs] at h
  | some r =>
    simp only [stepPeriod, hs, Option.map_some', Option.some.injEq] at h
    exact ⟨_, _, h.symm⟩

theorem stepTotal_shape (i : Nat) (t : List Char) (e : Extraction)
    (h : stepTotal i t = some e) :
    ∃ v s, e = ⟨some v, some (i + 1), some s, 0.95, none⟩ ∨
      e = ⟨some v, some (i + 1), some s, 0.8, none⟩ := by
  cases hs : searchTOTALBAL t with
  | none => simp [stepTotal, hs] at h
  | some r =>
    cases ha : searchCURRENCY ((t.drop (r.1 + r.2.1)).take r.2.2) with
    | none =>
      simp only [stepTotal, hs, ha, Option.some.injEq] at h
      exact ⟨_, _, Or.inr h.symm⟩
    | some a =>
      simp only [stepTotal, hs, ha, Option.some.injEq] at h
      exact ⟨_, _, Or.inl h.symm⟩

theorem stepVariant_shape (names : List (List Char)) (i : Nat) (t : List Char)
    (e : Extraction) (h : stepVariant names i t = some e) :
    ∃ v s, e = ⟨some v, some (i + 1), some s, 0.85, none⟩ := by
  cases hs : findNameIdx names (t.map Char.toLower) with
  | none => simp [stepVariant, hs] at h
  | some ni =>
    simp only [stepVariant, hs, Option.some.injEq] at h
    exact ⟨_, _, h.symm⟩

/-- Claim C2: for every extraction any of the five extractors can return,
`value is None`, `confidence == 0.0` and `notes is set` are pairwise
equivalent. -/
theorem C2_value_conf_notes (pages : List (List Char)) (hint : Option (List Char)) :
    invC2 (extract_last4 pages) ∧ invC2 (extract_due_date pages) ∧
    invC2 (extract_statement_period pages) ∧ invC2 (extract_total_balance pages) ∧
    invC2 (extract_card_variant pages hint) := by
  refine ⟨?_, ?_, ?_, ?_, ?_⟩
  · exact scanPages_inv stepLast4 invC2 invC2_NOT_FOUND
      (fun i t e h => by
        obtain ⟨v, s, rfl⟩ := stepLast4_shape i t e h
        exact invC2_found v _ s _ (by norm_num)) pages 0
  · exact scanPages_inv stepDue invC2 invC2_NOT_FOUND
      (fun i t e h => by
        obtain ⟨v, s, rfl⟩ := stepDue_shape i t e h
        exact invC2_found v _ s _ (by norm_num)) pages 0
  · exact scanPages_inv stepPeriod invC2 invC2_NOT_FOUND
      (fun i t e h => by
        obtain ⟨v, s, rfl⟩ := stepPeriod_shape i t e h
        exact invC2_found v _ s _ (by norm_num)) pages 0
  · exact scanPages_inv stepTotal invC2 invC2_NOT_FOUND
      (fun i t e h => by
        obtain ⟨v, s, hvs⟩ := stepTotal_shape i t e h
        cases hvs with
        | inl h1 => exact h1 ▸ invC2_found v _ s _ (by norm_num)
        | inr h2 => exact h2 ▸ invC2_found v _ s _ (by norm_num)) pages 0
  · cases hint with
    | none => exact invC2_ISSUER_UNKNOWN
    | some h =>
      by_cases hh : h = []
      · simp only [extract_card_variant, hh, if_pos rfl]
        exact invC2_ISSUER_UNKNOWN
      · simp only [extract_card_variant, if_neg hh]
        exact scanPages_inv (stepVariant (variantNames h)) invC2 invC2_NOT_FOUND
          (fun i t e he => by
            obtain ⟨v, s, rfl⟩ := stepVariant_shape (variantNames h) i t e he
            exact invC2_found v _ s _ (by norm_num)) pages 0

/-- Claim C9: a document with zero pages yields an absent issuer hint and
a not-found extraction (value absent, confidence 0) for every field,
without error — `parse_pages` is total and returns exactly the sentinel
record. -/
theorem C9_empty_document :
    parse_pages [] =
      { issuer_hint := none, card_last4 := NOT_FOUND, card_variant := ISSUER_UNKNOWN,
        statement_period := NOT_FOUND, payment_due_date := NOT_FOUND,
        total_balance := NOT_FOUND } ∧
    NOT_FOUND.value = none ∧ NOT_FOUND.confidence = 0 ∧ NOT_FOUND.notes ≠ none ∧
    ISSUER_UNKNOWN.value = none ∧ ISSUER_UNKNOWN.confidence = 0 ∧
    ISSUER_UNKNOWN.notes ≠ none := by
  refine ⟨by decide, by simp [NOT_FOUND], by simp [NOT_FOUND], by simp [NOT_FOUND],
    by simp [ISSUER_UNKNOWN], by simp [ISSUER_UNKNOWN], by simp [ISSUER_UNKNOWN]⟩

/-- The loop of `find_issuer` is the first table entry, in declared
order, whose any token occurs in the lower-cased text. -/
theorem findKey_eq_find (L : List (List Char × List (List Char))) (lc : List Char) :
    findKey L lc =
      (L.find? fun kv => kv.2.any fun tok => (strFind tok lc).isSome).map Prod.fst := by
  induction L with
  | nil => rfl
  | cons kv rest ih =>
    by_cases h : (kv.2.any fun tok => (strFind tok lc).isSome) = true
    · simp [findKey, List.find?, h]
    · simp only [Bool.not_eq_true] at h
      simp [findKey, List.find?, h, ih]

/-- Claim C3: `find_issuer` lower-cases the document text and returns the
first issuer in declared table order with a keyword occurrence (`none`
when there is none); in particular any text containing both a pnb-group
keyword and an hdfc-group keyword yields `pnb`, the earlier-declared
issuer. -/
theorem C3_find_issuer :
    (∀ t : List Char,
      find_issuer t =
        ((ISSUERS.find? fun kv =>
            kv.2.any fun tok => (strFind tok (t.map Char.toLower)).isSome).map Prod.fst)) ∧
    (∀ t : List Char,
      ((["pnb".toList, "punjab national bank".toList].any
          fun tok => (strFind tok (t.map Char.toLower)).isSome) = true) →
      ((["hdfc".toList].any
          fun tok => (strFind tok (t.map Char.toLower)).isSome) = true) →
      find_issuer t = some ("pnb".toList)) := by
  constructor
  · intro t
    exact findKey_eq_find ISSUERS (t.map Char.toLower)
  · intro t hpnb _
    simp only [find_issuer, ISSUERS, findKey]
    rw [if_pos hpnb]

/-- Witness for C3 at a concrete text containing keywords of both
groups. -/
theorem C3_find_issuer_witness :
    find_issuer ("statement from pnb and hdfc".toList) = some ("pnb".toList) :=
  C3_find_issuer.2 ("statement from pnb and hdfc".toList) (by decide) (by decide)

/-- Claim C1 (amended): each extractor scans pages strictly in index
order and returns the extraction built from the first page whose per-page
step succeeds, with 1-based page number `k + 1`, ignoring all later
pages.  For `extract_last4`, `extract_statement_period` and
`extract_total_balance` the step succeeds exactly when the label pattern
matches; for `extract_due_date` the step additionally requires a date
shape inside the captured phrase, and pages whose label matches without
one are skipped. -/
theorem C1_first_match_wins :
    ∀ (pages : List (List Char)) (k : Nat), k < pages.length →
      ((∀ j, j < k → stepLast4 j (pages.getD j []) = none) →
        ∀ e, stepLast4 k (pages.getD k []) = some e →
          extract_last4 pages = e ∧ e.page = some (k + 1)) ∧
      ((∀ j, j < k → stepDue j (pages.getD j []) = none) →
        ∀ e, stepDue k (pages.getD k []) = some e →
          extract_due_date pages = e ∧ e.page = some (k + 1)) ∧
      ((∀ j, j < k → stepPeriod j (pages.getD j []) = none) →
        ∀ e, stepPeriod k (pages.getD k []) = some e →
          extract_statement_period pages = e ∧ e.page = some (k + 1)) ∧
      ((∀ j, j < k → stepTotal j (pages.getD j []) = none) →
        ∀ e, stepTotal k (pages.getD k []) = some e →
          extract_total_balance pages = e ∧ e.page = some (k + 1)) := by
  intro pages k hk
  refine ⟨?_, ?_, ?_, ?_⟩
  · intro hnone e he
    refine ⟨scanPages_eq_of_first stepLast4 pages 0 k e hk
      (fun j hj => by simpa using hnone j hj) (by simpa using he), ?_⟩
    obtain ⟨v, s, rfl⟩ := stepLast4_shape k _ e he
    rfl
  · intro hnone e he
    refine ⟨scanPages_eq_of_first stepDue pages 0 k e hk
      (fun j hj => by simpa using hnone j hj) (by simpa using he), ?_⟩
    obtain ⟨v, s, rfl⟩ := stepDue_shape k _ e he
    rfl
  · intro hnone e he
    refine ⟨scanPages_eq_of_first stepPeriod pages 0 k e hk
      (fun j hj => by simpa using hnone j hj) (by simpa using he), ?_⟩
    obtain ⟨v, s, rfl⟩ := stepPeriod_shape k _ e he
    rfl
  · intro hnone e he
    refine ⟨scanPages_eq_of_first stepTotal pages 0 k e hk
      (fun j hj => by simpa using hnone j hj) (by simpa using he), ?_⟩
    obtain ⟨v, s, hvs⟩ := stepTotal_shape k _ e he
    cases hvs with
    | inl h1 => rw [h1]
    | inr h2 => rw [h2]

/-- Witness for C1 (amended): the first page is empty, the second carries
the last4 label, and the result is built from the second page. -/
theorem C1_first_match_wins_witness :
    extract_last4 [[], "Card ending in 4321".toList] =
      ⟨some ("4321".toList), some 2, some ("Card ending in 4321".toList), 0.95, none⟩ ∧
    (⟨some ("4321".toList), some 2, some ("Card ending in 4321".toList), 0.95,
      none⟩ : Extraction).page = some 2 :=
  (C1_first_match_wins [[], "Card ending in 4321".toList] 1 (by decide)).1
    (fun j hj => by
      have hj0 : j = 0 := by omega
      subst hj0
      decide)
    _ (by rfl)

/-- Counterexample to C1 as stated: the due-date label pattern matches on
page index 0 (`"Due Date: soon"`), yet the extractor does not return from
that page — it keeps scanning and reports page 2. -/
theorem C1_counterexample :
    (searchDUE ("Due Date: soon".toList)).isSome = true ∧
    (extract_due_date
        [("Due Date: soon".toList), ("Due Date: 04/15/2024".toList)]).page = some 2 ∧
    ¬((extract_due_date
        [("Due Date: soon".toList), ("Due Date: 04/15/2024".toList)]).page = some 1) := by
  exact ⟨by decide, by decide, by decide⟩

/-- Claim C5: the captured due-date phrase is searched for the numeric
date shape first and for the worded shape only when the numeric one is
absent, and the matched sub-phrase (not the whole captured run) is the
value; concretely, `"Due Date: 04/15/2024"` yields `"04/15/2024"` and
`"Due Date: March 5, 2024"` yields `"March 5, 2024"`. -/
theorem C5_due_date :
    (∀ (g d : List Char), searchDATE g = some d → duePhraseDate g = some d) ∧
    (∀ g : List Char, searchDATE g = none → duePhraseDate g = searchDATEWORD g) ∧
    extract_due_date [("Due Date: 04/15/2024".toList)] =
      ⟨some ("04/15/2024".toList), some 1, some ("Due Date: 04/15/2024".toList),
        0.95, none⟩ ∧
    extract_due_date [("Due Date: March 5, 2024".toList)] =
      ⟨some ("March 5, 2024".toList), some 1, some ("Due Date: March 5, 2024".toList),
        0.95, none⟩ ∧
    (extract_due_date [("Due Date: 04/15/2024 thanks".toList)]).value =
      some ("04/15/2024".toList) ∧
    (extract_due_date [("Due Date: March 5, 2024 01/02/2024".toList)]).value =
      some ("01/02/2024".toList) := by
  refine ⟨?_, ?_, by rfl, by rfl, by rfl, by rfl⟩
  · intro g d h
    simp [duePhraseDate, h]
  · intro g h
    simp [duePhraseDate, h]

/-- Witness for C5's quantified parts at a concrete phrase. -/
theorem C5_due_date_witness :
    duePhraseDate ("04/15/2024".toList) = some ("04/15/2024".toList) :=
  C5_due_date.1 ("04/15/2024".toList) ("04/15/2024".toList) (by decide)

/-- Claim C6: with no issuer hint `extract_card_variant` returns the
issuer-unknown sentinel independently of the pages; with hint `"sbi"` it
returns the first candidate name in declared list order occurring in the
lower-cased page text, title-cased, at confidence 0.85 — so `"prime"`
beats `"simplyclick"` on one page whatever their text positions. -/
theorem C6_card_variant :
    (∀ pages : List (List Char), extract_card_variant pages none = ISSUER_UNKNOWN) ∧
    ISSUER_UNKNOWN.notes = some ("issuer unknown".toList) ∧
    extract_card_variant [("Get SimplyCLICK now".toList)] (some ("sbi".toList)) =
      ⟨some ("Simplyclick".toList), some 1, some ("Get SimplyCLICK now".toList),
        0.85, none⟩ ∧
    (∀ (t : List Char) (rest : List (List Char)),
      (strFind ("prime".toList) (t.map Char.toLower)).isSome = true →
      (extract_card_variant (t :: rest) (some ("sbi".toList))).value =
          some ("Prime".toList) ∧
      (extract_card_variant (t :: rest) (some ("sbi".toList))).confidence = 0.85 ∧
      (extract_card_variant (t :: rest) (some ("sbi".toList))).page = some 1) := by
  refine ⟨fun pages => rfl, rfl, by rfl, ?_⟩
  intro t rest h
  obtain ⟨idx, hidx⟩ := Option.isSome_iff_exists.mp h
  have hstep : stepVariant
      ["prime".toList, "simplyclick".toList, "elite".toList, "classic".toList] 0 t =
      some ⟨some (pyTitle ("prime".toList)), some 1,
        some (normalize_spaces ((t.take (idx + 30)).drop (idx - 30))), 0.85, none⟩ := by
    simp only [stepVariant, findNameIdx, hidx]
  have hvar : extract_card_variant (t :: rest) (some ("sbi".toList)) =
      ⟨some (pyTitle ("prime".toList)), some 1,
        some (normalize_spaces ((t.take (idx + 30)).drop (idx - 30))), 0.85, none⟩ := by
    simp only [extract_card_variant]
    rw [if_neg (by decide)]
    have hnames : variantNames ("sbi".toList) =
        ["prime".toList, "simplyclick".toList, "elite".toList, "classic".toList] := rfl
    rw [hnames]
    simp only [scanPages, hstep]
  rw [hvar]
  exact ⟨rfl, rfl, rfl⟩

/-- Witness for C6's quantified part: `"prime"` occurs after
`"simplyclick"` in the text but wins on list order. -/
theorem C6_card_variant_witness :
    (extract_card_variant [("simplyclick prime".toList)]
        (some ("sbi".toList))).value = some ("Prime".toList) ∧
    (extract_card_variant [("simplyclick prime".toList)]
        (some ("sbi".toList))).confidence = 0.85 ∧
    (extract_card_variant [("simplyclick prime".toList)]
        (some ("sbi".toList))).page = some 1 :=
  C6_card_variant.2.2.2 ("simplyclick prime".toList) [] (by decide)

/-- Collapsing whitespace runs never lengthens a string. -/
theorem collapseAux_length_le : ∀ (l : List Char) (b : Bool),
    (collapseAux b l).length ≤ l.length := by
  intro l
  induction l with
  | nil => intro b; simp [collapseAux]
  | cons c rest ih =>
    intro b
    have h1 := ih false
    have h2 := ih true
    cases hsp : isPySpace c <;> cases b <;> simp [collapseAux, hsp] <;> omega

/-- `dropWhile` never lengthens a list. -/
theorem dropWhileLenLe (p : Char → Bool) : ∀ l : List Char,
    (l.dropWhile p).length ≤ l.length := by
  intro l
  induction l with
  | nil => simp [List.dropWhile]
  | cons c rest ih =>
    by_cases h : p c
    · simp only [List.dropWhile, h, List.length_cons]
      omega
    · simp [List.dropWhile, h]

/-- Stripping never lengthens a string. -/
theorem pyStrip_length_le (l : List Char) : (pyStrip l).length ≤ l.length := by
  unfold pyStrip
  calc ((l.dropWhile isPySpace).reverse.dropWhile isPySpace).reverse.length
      = ((l.dropWhile isPySpace).reverse.dropWhile isPySpace).length := by
        rw [List.length_reverse]
    _ ≤ (l.dropWhile isPySpace).reverse.length := dropWhileLenLe _ _
    _ = (l.dropWhile isPySpace).length := by rw [List.length_reverse]
    _ ≤ l.length := dropWhileLenLe _ _

/-- Normalizing never lengthens a string. -/
theorem normalize_spaces_length_le (l : List Char) :
    (normalize_spaces l).length ≤ l.length :=
  le_trans (pyStrip_length_le _) (collapseAux_length_le l false)

/-- Claim C7: `snippet_around` is the normalized clipped window
`text[max(0, start-40) : min(len, end+40)]`, and its length never
exceeds the span length plus 80. -/
theorem C7_snippet (text : List Char) (s e : Nat) (h : s ≤ e) :
    snippet_around text s e 40 =
      normalize_spaces ((text.take (min text.length (e + 40))).drop (s - 40)) ∧
    (snippet_around text s e 40).length ≤ (e - s) + 80 := by
  refine ⟨rfl, ?_⟩
  have h1 : (snippet_around text s e 40).length ≤
      ((text.take (min text.length (e + 40))).drop (s - 40)).length :=
    normalize_spaces_length_le _
  have h2 : ((text.take (min text.length (e + 40))).drop (s - 40)).length =
      min (min text.length (e + 40)) text.length - (s - 40) := by
    simp [List.length_drop, List.length_take]
  omega

/-- Witness for C7 at a concrete text and span. -/
theorem C7_snippet_witness :
    snippet_around ("hello world".toList) 2 5 40 =
      normalize_spaces ((("hello world".toList).take
        (min ("hello world".toList).length (5 + 40))).drop (2 - 40)) ∧
    (snippet_around ("hello world".toList) 2 5 40).length ≤ (5 - 2) + 80 :=
  C7_snippet ("hello world".toList) 2 5 (by omega)

/-- No two adjacent whitespace characters (the normal form produced by
collapsing runs). -/
def NoSS (a b : Char) : Prop := ¬(isPySpace a = true ∧ isPySpace b = true)

theorem collapse_head_not_space : ∀ (l : List Char) (c : Char),
    (collapseAux true l).head? = some c → isPySpace c = false := by
  intro l
  induction l with
  | nil => intro c h; simp [collapseAux] at h
  | cons d rest ih =>
    intro c h
    cases hsp : isPySpace d
    · simp only [collapseAux, hsp, Bool.false_eq_true, if_false, List.head?_cons,
        Option.some.injEq] at h
      rw [← h]
      exact hsp
    · simp only [collapseAux, hsp, if_true] at h
      exact ih c h

theorem collapse_space_is_blank : ∀ (l : List Char) (b : Bool) (c : Char),
    c ∈ collapseAux b l → isPySpace c = true → c = ' ' := by
  intro l
  induction l with
  | nil => intro b c h; simp [collapseAux] at h
  | cons d rest ih =>
    intro b c h hc
    cases hsp : isPySpace d
    · simp only [collapseAux, hsp, Bool.false_eq_true, if_false, List.mem_cons] at h
      rcases h with h | h
      · rw [h] at hc; rw [hc] at hsp; cases hsp
      · exact ih false c h hc
    · cases b
      · simp only [collapseAux, hsp, if_true, Bool.false_eq_true, if_false,
          List.mem_cons] at h
        rcases h with h | h
        · exact h
        · exact ih true c h hc
      · simp only [collapseAux, hsp, if_true] at h
        exact ih true c h hc

theorem collapse_chain : ∀ (l : List Char) (b : Bool),
    List.Chain' NoSS (collapseAux b l) := by
  intro l
  induction l with
  | nil => intro b; simp [collapseAux]
  | cons d rest ih =>
    intro b
    cases hsp : isPySpace d
    · simp only [collapseAux, hsp, Bool.false_eq_true, if_false]
      refine List.chain'_cons'.mpr ⟨?_, ih false⟩
      intro y _ hss
      rw [hsp] at hss
      exact absurd hss.1 (by simp)
    · cases b
      · simp only [collapseAux, hsp, if_true, Bool.false_eq_true, if_false]
        refine List.chain'_cons'.mpr ⟨?_, ih true⟩
        intro y hy hss
        rw [collapse_head_not_space rest y hy] at hss
        exact absurd hss.2 (by simp)
      · simp only [collapseAux, hsp, if_true]
        exact ih true

theorem collapse_fix : ∀ (l : List Char) (b : Bool),
    (∀ c ∈ l, isPySpace c = true → c = ' ') → List.Chain' NoSS l →
    (b = true → ∀ c, l.head? = some c → isPySpace c = false) →
    collapseAux b l = l := by
  intro l
  induction l with
  | nil => intro b _ _ _; simp [collapseAux]
  | cons d rest ih =>
    intro b hchars hchain hb
    have htail := (List.chain'_cons'.mp hchain).2
    have hchars' : ∀ c ∈ rest, isPySpace c = true → c = ' ' :=
      fun c hc => hchars c (List.mem_cons_of_mem d hc)
    cases hsp : isPySpace d
    · simp only [collapseAux, hsp, Bool.false_eq_true, if_false]
      rw [ih false hchars' htail (fun hf => nomatch hf)]
    · cases b
      · have hd : d = ' ' := hchars d (List.mem_cons_self d rest) hsp
        have hresthead : ∀ c, rest.head? = some c → isPySpace c = false := by
          intro c hc
          have hss := (List.chain'_cons'.mp hchain).1 c hc
          cases hspc : isPySpace c
          · rfl
          · exact absurd ⟨hsp, hspc⟩ hss
        simp only [collapseAux, hsp, if_true, Bool.false_eq_true, if_false]
        rw [ih true hchars' htail (fun _ => hresthead), hd]
      · exact absurd (hb rfl d rfl) (by simp [hsp])

theorem head_dropWhile_false (p : Char → Bool) : ∀ (l : List Char) (c : Char),
    (l.dropWhile p).head? = some c → p c = false := by
  intro l
  induction l with
  | nil => intro c h; simp [List.dropWhile] at h
  | cons d rest ih =>
    intro c h
    cases hp : p d
    · simp only [List.dropWhile, hp, Bool.false_eq_true, if_false, List.head?_cons,
        Option.some.injEq] at h
      rw [← h]
      exact hp
    · simp only [List.dropWhile, hp, if_true] at h
      exact ih c h

theorem dropWhile_id_of_head (p : Char → Bool) (l : List Char)
    (h : ∀ c, l.head? = some c → p c = false) : l.dropWhile p = l := by
  cases l with
  | nil => rfl
  | cons d rest => simp [List.dropWhile, h d rfl]

theorem mem_of_mem_dropWhile (p : Char → Bool) : ∀ (l : List Char) (c : Char),
    c ∈ l.dropWhile p → c ∈ l := by
  intro l
  induction l with
  | nil => intro c h; simp at h
  | cons d rest ih =>
    intro c h
    cases hp : p d
    · simpa [List.dropWhile, hp] using h
    · simp only [List.dropWhile, hp, if_true] at h
      exact List.mem_cons_of_mem d (ih c h)

theorem chain'_dropWhile (p : Char → Bool) {R : Char → Char → Prop} :
    ∀ l : List Char, List.Chain' R l → List.Chain' R (l.dropWhile p) := by
  intro l
  induction l with
  | nil => intro h; simp
  | cons d rest ih =>
    intro h
    cases hp : p d
    · simpa [List.dropWhile, hp] using h
    · simp only [List.dropWhile, hp, if_true]
      exact ih (List.chain'_cons'.mp h).2

theorem chain'_NoSS_reverse (l : List Char) (h : List.Chain' NoSS l) :
    List.Chain' NoSS l.reverse := by
  rw [List.chain'_reverse]
  exact List.Chain'.imp (fun a b hab hba => hab ⟨hba.2, hba.1⟩) h

theorem dropWhile_isSuffix (p : Char → Bool) : ∀ l : List Char, l.dropWhile p <:+ l := by
  intro l
  induction l with
  | nil => exact List.suffix_rfl
  | cons d rest ih =>
    cases hp : p d
    · simp [List.dropWhile, hp]
    · simp only [List.dropWhile, hp, if_true]
      exact ih.trans (List.suffix_cons d rest)

theorem rev_pre_of_suffix {l₁ l₂ : List Char} (h : l₁ <:+ l₂) :
    l₁.reverse <+: l₂.reverse := by
  obtain ⟨t, rfl⟩ := h
  exact ⟨t.reverse, (List.reverse_append t l₁).symm⟩

theorem head_of_pre {l₁ l₂ : List Char} (h : l₁ <+: l₂) (c : Char)
    (hc : l₁.head? = some c) : l₂.head? = some c := by
  obtain ⟨t, rfl⟩ := h
  cases l₁ with
  | nil => simp at hc
  | cons d r => simpa using hc

/-- The normal form of `normalize_spaces`: whitespace only as single
interior blanks. -/
def Normalized (l : List Char) : Prop :=
  (∀ c ∈ l, isPySpace c = true → c = ' ') ∧ List.Chain' NoSS l ∧
  (∀ c, l.head? = some c → isPySpace c = false) ∧
  (∀ c, l.getLast? = some c → isPySpace c = false)

theorem pyStrip_normalized (l : List Char)
    (hchars : ∀ c ∈ l, isPySpace c = true → c = ' ')
    (hchain : List.Chain' NoSS l) : Normalized (pyStrip l) := by
  refine ⟨?_, ?_, ?_, ?_⟩
  · intro c hc hsp
    apply hchars c ?_ hsp
    have h1 : c ∈ (l.dropWhile isPySpace).reverse.dropWhile isPySpace := by
      simpa [pyStrip] using hc
    have h2 : c ∈ (l.dropWhile isPySpace).reverse := mem_of_mem_dropWhile _ _ c h1
    have h3 : c ∈ l.dropWhile isPySpace := by simpa using h2
    exact mem_of_mem_dropWhile _ _ c h3
  · have c1 : List.Chain' NoSS (l.dropWhile isPySpace) := chain'_dropWhile _ _ hchain
    have c2 := chain'_NoSS_reverse _ c1
    have c3 : List.Chain' NoSS ((l.dropWhile isPySpace).reverse.dropWhile isPySpace) :=
      chain'_dropWhile _ _ c2
    have c4 := chain'_NoSS_reverse _ c3
    simpa [pyStrip] using c4
  · intro c hc
    have hzy : ((l.dropWhile isPySpace).reverse.dropWhile isPySpace).reverse <+:
        l.dropWhile isPySpace := by
      have h1 := dropWhile_isSuffix isPySpace (l.dropWhile isPySpace).reverse
      have h2 := rev_pre_of_suffix h1
      simpa using h2
    have hY : (l.dropWhile isPySpace).head? = some c :=
      head_of_pre hzy c (by simpa [pyStrip] using hc)
    exact head_dropWhile_false _ l c hY
  · intro c hc
    have h1 : ((l.dropWhile isPySpace).reverse.dropWhile isPySpace).head? = some c := by
      rw [← List.getLast?_reverse]
      simpa [pyStrip] using hc
    exact head_dropWhile_false _ _ c h1

theorem normalize_normalized (l : List Char) : Normalized (normalize_spaces l) :=
  pyStrip_normalized _ (fun c hc => collapse_space_is_blank l false c hc)
    (collapse_chain l false)

theorem normalize_fix (m : List Char) (h : Normalized m) : normalize_spaces m = m := by
  obtain ⟨hchars, hchain, hhead, hlast⟩ := h
  unfold normalize_spaces
  rw [collapse_fix m false hchars hchain (fun hf => nomatch hf)]
  unfold pyStrip
  rw [dropWhile_id_of_head _ m hhead]
  rw [dropWhile_id_of_head _ m.reverse
    (fun c hc => hlast c (by rwa [List.head?_reverse] at hc))]
  exact List.reverse_reverse m

/-- Claim C8: `normalize_spaces` is idempotent — the collapse-and-strip
normal form is a fixed point. -/
theorem C8_normalize_idempotent : ∀ s : List Char,
    normalize_spaces (normalize_spaces s) = normalize_spaces s :=
  fun s => normalize_fix _ (normalize_normalized s)

/-!
Membership characterization of the pattern combinators, used to invert a
successful total-balance match.
-/

theorem mem_downFrom : ∀ (count hi j : Nat),
    j ∈ downFrom hi count ↔ (j ≤ hi ∧ hi < j + count) := by
  intro count
  induction count with
  | zero => intro hi j; simp [downFrom]
  | succ c ih =>
    intro hi j
    simp only [downFrom, List.mem_cons, ih]
    omega

theorem mem_downFromTo (hi lo j : Nat) :
    j ∈ downFromTo hi lo ↔ (lo ≤ j ∧ j ≤ hi) := by
  rw [downFromTo, mem_downFrom]
  omega

theorem mem_optsStar (p : Char → Bool) (l : List Char) (j : Nat) :
    j ∈ optsStar p l ↔ j ≤ (l.takeWhile p).length := by
  rw [optsStar, mem_downFromTo]
  omega

theorem mem_optsPlus (p : Char → Bool) (l : List Char) (j : Nat) :
    j ∈ optsPlus p l ↔ (1 ≤ j ∧ j ≤ (l.takeWhile p).length) := by
  rw [optsPlus, mem_downFromTo]

theorem mem_optsRep (p : Char → Bool) (lo hi : Nat) (l : List Char) (j : Nat) :
    j ∈ optsRep p lo hi l ↔ (lo ≤ j ∧ j ≤ min hi (l.takeWhile p).length) := by
  rw [optsRep, mem_downFromTo]

theorem mem_optsSeq (A B : List Char → List Nat) (l : List Char) (x : Nat) :
    x ∈ optsSeq A B l ↔ ∃ n, n ∈ A l ∧ ∃ m, m ∈ B (l.drop n) ∧ x = n + m := by
  simp only [optsSeq, List.mem_flatMap, List.mem_map]
  constructor
  · rintro ⟨n, hn, m, hm, rfl⟩
    exact ⟨n, hn, m, hm, rfl⟩
  · rintro ⟨n, hn, m, hm, rfl⟩
    exact ⟨n, hn, m, hm, rfl⟩

theorem mem_optsOpt (A : List Char → List Nat) (l : List Char) (x : Nat) :
    x ∈ optsOpt A l ↔ (x ∈ A l ∨ x = 0) := by
  simp [optsOpt]

theorem mem_optsLit (pat l : List Char) (x : Nat) :
    x ∈ optsLit pat l ↔ (List.isPrefixOf pat l = true ∧ x = pat.length) := by
  by_cases h : List.isPrefixOf pat l
  · simp [optsLit, h]
  · simp [optsLit, h]

theorem takeWhile_all (p : Char → Bool) : ∀ (l : List Char) (j : Nat),
    j ≤ (l.takeWhile p).length → ∀ x ∈ l.take j, p x = true := by
  intro l
  induction l with
  | nil => intro j _ x hx; simp at hx
  | cons d rest ih =>
    intro j hj x hx
    cases hp : p d
    · simp [List.takeWhile, hp] at hj
      subst hj
      simp at hx
    · cases j with
      | zero => simp at hx
      | succ j =>
        simp only [List.takeWhile, hp, if_true, List.length_cons,
          Nat.succ_le_succ_iff] at hj
        simp only [List.take_succ_cons, List.mem_cons] at hx
        rcases hx with hx | hx
        · rw [hx]; exact hp
        · exact ih j hj x hx

theorem takeWhile_ge (p : Char → Bool) : ∀ (l : List Char) (j : Nat),
    j ≤ l.length → (∀ x ∈ l.take j, p x = true) →
    j ≤ (l.takeWhile p).length := by
  intro l
  induction l with
  | nil => intro j hj _; simpa using hj
  | cons d rest ih =>
    intro j hj hall
    cases j with
    | zero => omega
    | succ j =>
      have hd : p d = true := hall d (by simp)
      simp only [List.takeWhile, hd, if_true, List.length_cons,
        Nat.succ_le_succ_iff]
      refine ih j (by simpa using hj) ?_
      intro x hx
      exact hall x (by simp [hx])

theorem takeWhile_two (p : Char → Bool) (l : List Char)
    (h : 2 ≤ (l.takeWhile p).length) :
    ∃ d1 d2 t, l = d1 :: d2 :: t ∧ p d1 = true ∧ p d2 = true := by
  cases l with
  | nil => simp at h
  | cons d1 rest =>
    cases hp1 : p d1
    · simp [List.takeWhile, hp1] at h
    · cases rest with
      | nil => simp [List.takeWhile, hp1] at h
      | cons d2 t =>
        cases hp2 : p d2
        · simp [List.takeWhile, hp1, hp2] at h
        · exact ⟨d1, d2, t, rfl, hp1, hp2⟩

theorem isPrefixOfIffAppend (p l : List Char) :
    List.isPrefixOf p l = true ↔ ∃ t, p ++ t = l := by
  rw [ List.isPrefixOf_iff_prefix]
  exact Iff.rfl

theorem takeWhileLenLe (p : Char → Bool) : ∀ l : List Char,
    (l.takeWhile p).length ≤ l.length := by
  intro l
  induction l with
  | nil => simp
  | cons d rest ih =>
    cases hp : p d
    · simp [List.takeWhile, hp]
    · simp only [List.takeWhile, hp, if_true, List.length_cons]
      omega

theorem head?_mem {α : Type} {l : List α} {a : α} (h : l.head? = some a) : a ∈ l := by
  cases l with
  | nil => simp at h
  | cons b t =>
    simp only [List.head?_cons, Option.some.injEq] at h
    rw [← h]
    exact List.mem_cons_self b t

theorem firstSplit_inv (A B : List Char → List Nat) (l : List Char) (n m : Nat)
    (h : firstSplit A B l = some (n, m)) : n ∈ A l ∧ m ∈ B (l.drop n) := by
  obtain ⟨a, ha, hfa⟩ := List.exists_of_findSome?_eq_some h
  cases hh : (B (l.drop a)).head? with
  | none => rw [hh] at hfa; simp at hfa
  | some m0 =>
    rw [hh] at hfa
    simp only [Option.map_some', Option.some.injEq, Prod.mk.injEq] at hfa
    obtain ⟨rfl, rfl⟩ := hfa
    exact ⟨ha, head?_mem hh⟩

theorem searchFrom_inv (A B : List Char → List Nat) :
    ∀ (l : List Char) (i s n m : Nat), searchFrom A B i l = some (s, n, m) →
      ∃ k, s = i + k ∧ firstSplit A B (l.drop k) = some (n, m) := by
  intro l
  induction l with
  | nil =>
    intro i s n m h
    simp only [searchFrom] at h
    cases hf : firstSplit A B [] with
    | none => rw [hf] at h; simp at h
    | some nm =>
      rw [hf] at h
      simp only [Option.map_some', Option.some.injEq, Prod.mk.injEq] at h
      obtain ⟨rfl, rfl, rfl⟩ := h
      exact ⟨0, by omega, hf⟩
  | cons c rest ih =>
    intro i s n m h
    simp only [searchFrom] at h
    cases hf : firstSplit A B (c :: rest) with
    | some nm =>
      rw [hf] at h
      simp only [Option.some.injEq, Prod.mk.injEq] at h
      obtain ⟨rfl, rfl, rfl⟩ := h
      exact ⟨0, by omega, hf⟩
    | none =>
      rw [hf] at h
      obtain ⟨k, hk, hsplit⟩ := ih (i + 1) s n m h
      exact ⟨k + 1, by omega, by simpa using hsplit⟩

/-- Decomposition of a string the currency pattern can consume whole:
optional rupee sign, whitespace, a nonempty comma-digit run, optional
two-digit decimal fraction. -/
def CurShape (g : List Char) : Prop :=
  ∃ a b c d, g = a ++ b ++ c ++ d ∧
    (a = [] ∨ a = ['₹']) ∧
    (∀ x ∈ b, isPySpace x = true) ∧
    c ≠ [] ∧ (∀ x ∈ c, isCommaDigit x = true) ∧
    (d = [] ∨ ∃ d1 d2, d = ['.', d1, d2] ∧ isDig d1 = true ∧ isDig d2 = true)

theorem curShape_of_mem (l : List Char) (m : Nat) (h : m ∈ currencyOpts l) :
    CurShape (l.take m) := by
  rw [currencyOpts, mem_optsSeq] at h
  obtain ⟨n1, hn1, m1, hm1, rfl⟩ := h
  rw [mem_optsSeq] at hm1
  obtain ⟨n2, hn2, m2, hm2, rfl⟩ := hm1
  rw [mem_optsSeq] at hm2
  obtain ⟨n3, hn3, n4, hn4, rfl⟩ := hm2
  rw [mem_optsStar] at hn2
  rw [mem_optsPlus] at hn3
  refine ⟨l.take n1, (l.drop n1).take n2, ((l.drop n1).drop n2).take n3,
    (((l.drop n1).drop n2).drop n3).take n4, ?_, ?_, ?_, ?_, ?_, ?_⟩
  · rw [List.take_add, List.take_add, List.take_add]
    simp [List.append_assoc]
  · rw [mem_optsOpt] at hn1
    rcases hn1 with hn1 | rfl
    · rw [mem_optsLit] at hn1
      obtain ⟨hpre, rfl⟩ := hn1
      rw [isPrefixOfIffAppend] at hpre
      obtain ⟨t, ht⟩ := hpre
      right
      rw [← ht]
      rfl
    · left; rfl
  · exact takeWhile_all isPySpace _ n2 hn2
  · have hlen : n3 ≤ ((l.drop n1).drop n2).length :=
      le_trans hn3.2 (takeWhileLenLe _ _)
    have : (((l.drop n1).drop n2).take n3).length = n3 := by
      rw [List.length_take]
      omega
    intro hnil
    rw [hnil] at this
    simp at this
    omega
  · exact takeWhile_all isCommaDigit _ n3 hn3.2
  · rw [mem_optsOpt] at hn4
    rcases hn4 with hn4 | rfl
    · rw [fracOpts, mem_optsSeq] at hn4
      obtain ⟨p1, hp1, p2, hp2, rfl⟩ := hn4
      rw [mem_optsLit] at hp1
      obtain ⟨hpre, rfl⟩ := hp1
      rw [mem_optsRep] at hp2
      rw [isPrefixOfIffAppend] at hpre
      obtain ⟨t3, ht3⟩ := hpre
      have hdp : (((l.drop n1).drop n2).drop n3).drop (['.'].length) = t3 := by
        rw [← ht3]
        exact List.drop_left ['.'] t3
      have hrun : 2 ≤ (t3.takeWhile isDig).length := by
        have := hp2.2
        simp only [hdp] at this
        omega
      obtain ⟨d1, d2, t', rfl, h1, h2⟩ := takeWhile_two isDig t3 hrun
      have hp2' : p2 = 2 := by
        have := hp2.1
        have h2' := hp2.2
        omega
      right
      refine ⟨d1, d2, ?_, h1, h2⟩
      rw [← ht3, hp2']
      rfl
    · left; rfl

theorem currencyOpts_ne_nil_of_shape (g : List Char) (h : CurShape g) :
    currencyOpts g ≠ [] := by
  obtain ⟨a, b, c, d, hg, ha, hb, hcne, hc, hd⟩ := h
  apply List.ne_nil_of_mem
    (a := a.length + (b.length + (c.length + d.length)))
  rw [currencyOpts, mem_optsSeq]
  refine ⟨a.length, ?_, b.length + (c.length + d.length), ?_, rfl⟩
  · rw [mem_optsOpt]
    rcases ha with rfl | rfl
    · right; rfl
    · left
      rw [mem_optsLit]
      refine ⟨?_, rfl⟩
      rw [isPrefixOfIffAppend, hg]
      exact ⟨b ++ c ++ d, by simp [List.append_assoc]⟩
  · have hdrop : g.drop a.length = b ++ (c ++ d) := by
      rw [hg, List.append_assoc, List.append_assoc, List.drop_left]
    rw [hdrop, mem_optsSeq]
    refine ⟨b.length, ?_, c.length + d.length, ?_, rfl⟩
    · rw [mem_optsStar]
      apply takeWhile_ge
      · simp
      · intro x hx
        rw [List.take_left] at hx
        exact hb x hx
    · rw [List.drop_left, mem_optsSeq]
      refine ⟨c.length, ?_, d.length, ?_, rfl⟩
      · rw [mem_optsPlus]
        refine ⟨?_, ?_⟩
        · cases c with
          | nil => exact absurd rfl hcne
          | cons x xs => simp
        · apply takeWhile_ge
          · simp
          · intro x hx
            rw [List.take_left] at hx
            exact hc x hx
      · rw [List.drop_left, mem_optsOpt]
        rcases hd with rfl | ⟨d1, d2, rfl, h1, h2⟩
        · right; rfl
        · left
          rw [fracOpts, mem_optsSeq]
          refine ⟨1, ?_, 2, ?_, rfl⟩
          · rw [mem_optsLit]
            refine ⟨?_, rfl⟩
            rw [isPrefixOfIffAppend]
            exact ⟨[d1, d2], rfl⟩
          · rw [mem_optsRep]
            refine ⟨le_refl 2, ?_⟩
            have : List.takeWhile isDig [d1, d2] = [d1, d2] := by
              simp [List.takeWhile, h1, h2]
            simp [this]

theorem searchCURRENCY_isSome (g : List Char) (h : currencyOpts g ≠ []) :
    (searchCURRENCY g).isSome = true := by
  obtain ⟨m0, hm0⟩ : ∃ m0, (currencyOpts g).head? = some m0 := by
    cases hc : currencyOpts g with
    | nil => exact absurd hc h
    | cons x xs => exact ⟨x, rfl⟩
  have hsplit : firstSplit optsEps currencyOpts g = some (0, m0) := by
    simp only [firstSplit, optsEps, List.findSome?_cons, List.drop_zero, hm0,
      Option.map_some']
  cases g with
  | nil =>
    simp only [searchCURRENCY, searchFrom, hsplit, Option.map_some']
    rfl
  | cons c rest =>
    simp only [searchCURRENCY, searchFrom, hsplit, Option.map_some']
    rfl

/-- Claim C10: whenever `extract_total_balance` returns a present value,
the confidence is exactly 0.95 — the capture of the total-balance label
pattern is itself currency-shaped, so the inner `RE_CURRENCY` search over
the captured phrase always succeeds and the 0.8 fallback branch is
unreachable. -/
theorem C10_total_balance_conf : ∀ pages : List (List Char),
    (extract_total_balance pages).value ≠ none →
    (extract_total_balance pages).confidence = 0.95 := by
  intro pages
  refine scanPages_inv stepTotal
    (fun e => e.value ≠ none → e.confidence = 0.95) ?_ ?_ pages 0
  · intro hv
    exact absurd rfl hv
  · intro i t e he _
    cases hs : searchTOTALBAL t with
    | none => simp [stepTotal, hs] at he
    | some r =>
      obtain ⟨k, hk, hsplit⟩ :=
        searchFrom_inv totalPrefixOpts currencyOpts t 0 r.1 r.2.1 r.2.2 hs
      have hk0 : k = r.1 := by omega
      subst hk0
      obtain ⟨hn, hm⟩ := firstSplit_inv _ _ _ _ _ hsplit
      have hdd : (t.drop r.1).drop r.2.1 = t.drop (r.1 + r.2.1) := by
        rw [List.drop_drop, Nat.add_comm]
      rw [hdd] at hm
      have hcur := searchCURRENCY_isSome _
        (currencyOpts_ne_nil_of_shape _ (curShape_of_mem _ _ hm))
      cases ha : searchCURRENCY ((t.drop (r.1 + r.2.1)).take r.2.2) with
      | none => rw [ha] at hcur; simp at hcur
      | some a =>
        simp only [stepTotal, hs, ha, Option.some.injEq] at he
        rw [← he]

/-- Witness for C10 at the spec's concrete page. -/
theorem C10_total_balance_conf_witness :
    (extract_total_balance [("Total Amount Due: ₹12,345.67".toList)]).value ≠ none ∧
    (extract_total_balance [("Total Amount Due: ₹12,345.67".toList)]).confidence = 0.95 :=
  ⟨by decide,
    C10_total_balance_conf [("Total Amount Due: ₹12,345.67".toList)] (by decide)⟩

/-- Claim C4: on the first page where the total-balance label matches,
if the currency search succeeds inside the captured phrase the found
token is the value at confidence 0.95, otherwise the whole normalized
phrase is the value at confidence 0.8; concretely,
`"Total Amount Due: ₹12,345.67"` yields a value containing `"12,345.67"`
at confidence 0.95. -/
theorem C4_total_balance :
    (∀ (pages : List (List Char)) (k : Nat), k < pages.length →
      (∀ j, j < k → stepTotal j (pages.getD j []) = none) →
      ∀ s n m, searchTOTALBAL (pages.getD k []) = some (s, n, m) →
        (∀ cs cn,
          searchCURRENCY (((pages.getD k []).drop (s + n)).take m) = some (cs, cn) →
          extract_total_balance pages =
            ⟨some ((((pages.getD k []).drop (s + n)).take m).drop cs |>.take cn),
              some (k + 1),
              some (snippet_around (pages.getD k []) s (s + n + m) 40), 0.95, none⟩) ∧
        (searchCURRENCY (((pages.getD k []).drop (s + n)).take m) = none →
          extract_total_balance pages =
            ⟨some (normalize_spaces (((pages.getD k []).drop (s + n)).take m)),
              some (k + 1),
              some (snippet_around (pages.getD k []) s (s + n + m) 40), 0.8, none⟩)) ∧
    ((extract_total_balance [("Total Amount Due: ₹12,345.67".toList)]).value =
        some ("₹12,345.67".toList) ∧
      (strFind ("12,345.67".toList) ("₹12,345.67".toList)).isSome = true ∧
      (extract_total_balance [("Total Amount Due: ₹12,345.67".toList)]).confidence =
        0.95) := by
  constructor
  · intro pages k hk hnone s n m hs
    constructor
    · intro cs cn ha
      have hstep : stepTotal k (pages.getD k []) =
          some ⟨some ((((pages.getD k []).drop (s + n)).take m).drop cs |>.take cn),
            some (k + 1),
            some (snippet_around (pages.getD k []) s (s + n + m) 40), 0.95, none⟩ := by
        simp only [stepTotal, hs, ha]
      exact (scanPages_eq_of_first stepTotal pages 0 k _ hk
        (fun j hj => by simpa using hnone j hj) (by simpa using hstep))
    · intro ha
      have hstep : stepTotal k (pages.getD k []) =
          some ⟨some (normalize_spaces (((pages.getD k []).drop (s + n)).take m)),
            some (k + 1),
            some (snippet_around (pages.getD k []) s (s + n + m) 40), 0.8, none⟩ := by
        simp only [stepTotal, hs, ha]
      exact (scanPages_eq_of_first stepTotal pages 0 k _ hk
        (fun j hj => by simpa using hnone j hj) (by simpa using hstep))
  · exact ⟨by decide, by decide, by rfl⟩

/-- Witness for C4's quantified part at the spec's concrete page. -/
theorem C4_total_balance_witness :
    extract_total_balance [("Total Amount Due: ₹12,345.67".toList)] =
      ⟨some (((("Total Amount Due: ₹12,345.67".toList).drop (0 + 18)).take 10).drop 0
          |>.take 10),
        some (0 + 1),
        some (snippet_around ("Total Amount Due: ₹12,345.67".toList) 0 (0 + 18 + 10) 40),
        0.95, none⟩ :=
  (C4_total_balance.1 [("Total Amount Due: ₹12,345.67".toList)] 0 (by decide)
    (fun j hj => absurd hj (by omega)) 0 18 10 (by decide)).1 0 10 (by decide)
